import Mathlib

/-!
# Consistent-hash ring with virtual replicas

A shallow embedding of `src/main.go` (type `HashRing` with `NewHashRing`, `AddNode`,
`hashKey`, `GetNode`, `RemoveNode`, `search`) and of the standard-library routines it
calls (`crc32.ChecksumIEEE`, `strconv.Itoa`, `sort.Search`, `sort.Slice`).

Modelling conventions.
* A Go `string` is a Lean `String`; `[]byte(s)` is its UTF-8 encoding.
* A `uint32` is a `Nat`.  The only arithmetic on `uint32` values happens inside the
  checksum, where every intermediate value stays below `2 ^ 32`; positions are otherwise
  only compared.
* The map `nodes : map[uint32]string` is a finite map with distinct keys
  (`AList`); reading a missing key yields the zero value `""`.
* A slice is a `List Nat`.  Indexing outside the slice is a runtime panic, so every
  function that indexes returns a `Result`.
* The mutex `mu` guards whole method bodies; the sequential embedding has no use for it.
-/

/-! ## Outcomes of fallible code -/

/-- Ways in which a call can fail to produce a value. -/
inductive Fault where
  /-- Go runtime panic: index out of range. -/
  | indexOutOfRange
  /-- The iteration budget of a modelled loop ran out before the loop ended. -/
  | fuelExhausted
  deriving DecidableEq, Repr

/-- Outcome of a call: a value, or a fault. -/
inductive Result (α : Type) where
  | ok : α → Result α
  | fault : Fault → Result α
  deriving DecidableEq, Repr

namespace Result

/-- Sequencing: a fault aborts what follows. -/
def bind {α β : Type} (r : Result α) (k : α → Result β) : Result β :=
  match r with
  | ok a => k a
  | fault e => fault e

end Result

/-- Slice element access `s[i]`, which panics when `i` is out of range. -/
def index (s : List Nat) (i : Nat) : Result Nat :=
  match s[i]? with
  | some x => .ok x
  | none => .fault .indexOutOfRange

/-! ## Standard library: `hash/crc32`, `strconv`, `sort` -/

namespace crc32

/-- The reversed IEEE polynomial, `crc32.IEEE`. -/
def IEEE : Nat := 0xedb88320

/-- Entry `i` of the byte-wise lookup table (`simplePopulateTable`): eight shift steps. -/
def tableEntry (poly i : Nat) : Nat :=
  (List.range 8).foldl
    (fun crc _ => if crc &&& 1 = 1 then (crc >>> 1) ^^^ poly else crc >>> 1) i

/-- Byte-at-a-time update (`simpleUpdate`): complement, fold the bytes, complement. -/
def simpleUpdate (crc poly : Nat) (p : List Nat) : Nat :=
  let crc := crc ^^^ 0xFFFFFFFF
  let crc := p.foldl (fun crc v => tableEntry poly ((crc % 256) ^^^ v) ^^^ (crc >>> 8)) crc
  crc ^^^ 0xFFFFFFFF

/-- Checksum `crc32.ChecksumIEEE(data)`. -/
def ChecksumIEEE (data : List Nat) : Nat := simpleUpdate 0 IEEE data

end crc32

namespace strconv

/-- Decimal rendering `strconv.Itoa(i)`. -/
def Itoa (i : Int) : String := toString i

end strconv

namespace sort

/-- The loop of `sort.Search`: `i, j := 0, n; for i < j { h := int(uint(i+j) >> 1);
if !f(h) { i = h + 1 } else { j = h } }; return i`.  Since `i ≤ j ≤ n` and `n` is the
length of a slice, `i + j` fits in a `uint`, so `h` is the exact midpoint.  The first
argument bounds the number of iterations. -/
def Search.loop (f : Nat → Result Bool) : Nat → Nat → Nat → Result Nat
  | 0, i, j => if i < j then .fault .fuelExhausted else .ok i
  | fuel + 1, i, j =>
    if i < j then
      let h := (i + j) / 2
      (f h).bind fun b =>
        if !b then Search.loop f fuel (h + 1) j else Search.loop f fuel i h
    else .ok i

/-- Binary search `sort.Search(n, f)`, with an iteration budget of `n`. -/
def Search (n : Nat) (f : Nat → Result Bool) : Result Nat :=
  Search.loop f n 0 n

/-- The call `sort.Slice(s, func(i, j int) bool { return s[i] < s[j] })`: the slice
rearranged into ascending order. -/
def Slice (s : List Nat) : List Nat :=
  s.insertionSort (fun a b => a ≤ b)

end sort

/-! ## The ring -/

/-- The map type `map[uint32]string`. -/
abbrev NodeMap := AList (fun _ : Nat => String)

/-- The struct `HashRing` (without its mutex). -/
structure HashRing where
  nodes : NodeMap
  sortedHashes : List Nat
  replicas : Int

/-- UTF-8 bytes of a string, `[]byte(key)`. -/
def bytes (key : String) : List Nat :=
  key.toUTF8.data.toList.map UInt8.toNat

/-- Hash of a key: `crc32.ChecksumIEEE([]byte(key))`.  The method does not read its
receiver. -/
def hashKey (key : String) : Nat :=
  crc32.ChecksumIEEE (bytes key)

/-- Constructor `NewHashRing(replicas)`. -/
def NewHashRing (replicas : Int) : HashRing :=
  { nodes := ∅, sortedHashes := [], replicas := replicas }

namespace HashRing

/-- Map read `hr.nodes[p]`: the bound node, or the zero value `""` for a missing key. -/
def nodeAt (hr : HashRing) (p : Nat) : String :=
  (hr.nodes.lookup p).getD ""

/-- Position of replica `i` of `node`: `hashKey(node + strconv.Itoa(i))`. -/
def replicaHash (node : String) (i : Nat) : Nat :=
  hashKey (node ++ strconv.Itoa (Int.ofNat i))

/-- One iteration of the loop of `AddNode`. -/
def addReplica (node : String) (hr : HashRing) (i : Nat) : HashRing :=
  let hash := replicaHash node i
  { hr with nodes := hr.nodes.insert hash node, sortedHashes := hr.sortedHashes ++ [hash] }

/-- Method `AddNode(node)`: the loop `for i := 0; i < hr.replicas; i++` (run
`hr.replicas.toNat` times, that is never for a negative count), then the sort. -/
def AddNode (hr : HashRing) (node : String) : HashRing :=
  let hr1 := (List.range hr.replicas.toNat).foldl (addReplica node) hr
  { hr1 with sortedHashes := sort.Slice hr1.sortedHashes }

/-- Method `search(hash)`. -/
def search (hr : HashRing) (hash : Nat) : Result Nat :=
  (sort.Search hr.sortedHashes.length
      (fun i => (index hr.sortedHashes i).bind fun x => .ok (decide (x ≥ hash)))).bind
    fun idx => if idx < hr.sortedHashes.length then .ok idx else .ok 0

/-- Method `GetNode(key)`.  The element `hr.sortedHashes[idx]` is read for the log line
and for the map read. -/
def GetNode (hr : HashRing) (key : String) : Result String :=
  if hr.sortedHashes.length = 0 then .ok ""
  else
    let hash := hashKey key
    (hr.search hash).bind fun idx =>
      (index hr.sortedHashes idx).bind fun p =>
        .ok (hr.nodeAt p)

/-- Method `RemoveNode(node)`: delete the replica positions, then rebuild the sequence
from the keys of the map (in the map's iteration order) and sort it. -/
def RemoveNode (hr : HashRing) (node : String) : HashRing :=
  let nodes := (List.range hr.replicas.toNat).foldl
    (fun m i => m.erase (replicaHash node i)) hr.nodes
  { hr with nodes := nodes, sortedHashes := sort.Slice nodes.keys }

end HashRing

/-! ## Histories of calls -/

/-- A mutating call on the ring. -/
inductive Op where
  | add : String → Op
  | remove : String → Op
  deriving DecidableEq, Repr

/-- Effect of one call. -/
def Op.apply (hr : HashRing) : Op → HashRing
  | .add n => hr.AddNode n
  | .remove n => hr.RemoveNode n

/-- The ring reached from `NewHashRing(R)` by the calls `ops`, oldest first. -/
def run (R : Int) (ops : List Op) : HashRing :=
  ops.foldl Op.apply (NewHashRing R)

/-- Whether `n` is currently present after the calls `ops`: the latest call naming `n`
is an `AddNode`. -/
def present (ops : List Op) (n : String) : Bool :=
  ops.foldl
    (fun b op =>
      match op with
      | .add m => if m = n then true else b
      | .remove m => if m = n then false else b)
    false

/-! ## Notions used to state the properties -/

/-- The replica positions `hashKey(node + strconv.Itoa(i))`, `0 ≤ i < replicas`, in the
order in which the loops of `AddNode` and `RemoveNode` visit them. -/
def replicaHashes (replicas : Int) (node : String) : List Nat :=
  (List.range replicas.toNat).map (HashRing.replicaHash node)

/-- Position `p` owns hash `h` on the circle `l`: it is the least position of `l` that
is `≥ h`, or, when `l` has no such position, the least position of `l` (wraparound). -/
def IsOwner (l : List Nat) (h p : Nat) : Prop :=
  p ∈ l ∧ ((h ≤ p ∧ ∀ q ∈ l, h ≤ q → p ≤ q) ∨ ((∀ q ∈ l, q < h) ∧ ∀ q ∈ l, p ≤ q))

/-- What every call preserves: the replica count, ascending order of the sequence,
agreement between the sequence and the keys of the table, and that every table entry
sits at a replica position of the node it names, which is a present node. -/
structure RingInv (R : Int) (ops : List Op) (hr : HashRing) : Prop where
  replicas : hr.replicas = R
  sorted : hr.sortedHashes.Sorted (fun a b => a ≤ b)
  keys : ∀ p, p ∈ hr.sortedHashes ↔ p ∈ hr.nodes.keys
  bound : ∀ p m, hr.nodes.lookup p = some m → p ∈ replicaHashes R m ∧ present ops m = true

/-! ## Concrete rings used as test inputs -/

/-- Positions `10, 50, 90` bound to `A, B, C`. -/
def ringABC : HashRing :=
  { nodes := (((∅ : NodeMap).insert 10 "A").insert 50 "B").insert 90 "C"
    sortedHashes := [10, 50, 90]
    replicas := 1 }

/-- The calls of `main` before the lookups: three nodes added to a ring of 8 replicas. -/
def mainOps : List Op := [.add "node1", .add "node2", .add "node3"]

/-- The five keys looked up by the scenario of `main`. -/
def mainKeys : List String := ["newkey", "newkey2", "newkey3", "newkey4", "newkey5"]

/-- Two node names whose replica 0 has the same position, then a third node. -/
def collidingOps : List Op := [.add "node-uejgtcuo", .add "node-iiwucoup", .add "node2"]

/-- An ascending sequence with a run of equal positions. -/
def ringTies : HashRing :=
  { ringABC with sortedHashes := [10, 50, 50, 90] }

/-- A sequence that is not ascending. -/
def ringUnsorted : HashRing :=
  { ringABC with sortedHashes := [90, 10, 50] }

set_option maxRecDepth 1000000

/-! ## The checksum on a reference input -/

/-- The standard check value of CRC-32/IEEE: the checksum of `"123456789"` is
`0xCBF43926`. -/
theorem crc32.check_value : hashKey "123456789" = 0xCBF43926 := by
  decide

/-! ## Binary search -/

theorem Result.bind_ok {α β : Type} (a : α) (k : α → Result β) :
    (Result.ok a).bind k = k a := rfl

theorem index_of_lt (s : List Nat) (i : Nat) (h : i < s.length) :
    index s i = .ok (s.getD i 0) := by
  simp [index, List.getElem?_eq_getElem h, List.getD_eq_getElem?_getD]

theorem index_of_ge (s : List Nat) (i : Nat) (h : s.length ≤ i) :
    index s i = .fault .indexOutOfRange := by
  simp [index, List.getElem?_eq_none h]

/-- The loop of `sort.Search` ends within its budget when the budget covers `j - i`
and the predicate is defined on `[0, n)`; its result lies in `[i, j]`; and for a
monotone predicate the loop invariant `f(i-1) = false`, `f(j) = true` carries over to
the result. -/
theorem sort.Search.loop_spec (f : Nat → Result Bool) (g : Nat → Bool) (n : Nat)
    (hf : ∀ k, k < n → f k = .ok (g k)) :
    ∀ fuel i j, i ≤ j → j ≤ n → j - i ≤ fuel →
      ∃ r, sort.Search.loop f fuel i j = .ok r ∧ i ≤ r ∧ r ≤ j ∧
        ((∀ a b, a ≤ b → b < n → g a = true → g b = true) →
          (∀ k, k < i → g k = false) → (∀ k, j ≤ k → k < n → g k = true) →
          (∀ k, k < r → g k = false) ∧ (∀ k, r ≤ k → k < n → g k = true)) := by
  intro fuel
  induction fuel with
  | zero =>
    intro i j hij _ hfuel
    have hji : ¬ i < j := by omega
    exact ⟨i, by simp [sort.Search.loop, hji], le_refl i, hij, fun _ hlo hhi => ⟨hlo, by
      intro k hk hkn; exact hhi k (by omega) hkn⟩⟩
  | succ fuel ih =>
    intro i j hij hjn hfuel
    by_cases hlt : i < j
    · have hh1 : i ≤ (i + j) / 2 := by omega
      have hh2 : (i + j) / 2 < j := by omega
      have hfh := hf ((i + j) / 2) (by omega)
      cases hg : g ((i + j) / 2) with
      | false =>
        obtain ⟨r, hr, hir, hrj, hinv⟩ := ih ((i + j) / 2 + 1) j (by omega) hjn (by omega)
        refine ⟨r, ?_, by omega, hrj, ?_⟩
        · simp [sort.Search.loop, hlt, hfh, hg, Result.bind_ok, hr]
        · intro hmono _ hhi
          refine hinv hmono ?_ hhi
          intro k hk
          cases hgk : g k with
          | false => rfl
          | true =>
            have := hmono k ((i + j) / 2) (by omega) (by omega) hgk
            rw [hg] at this
            exact absurd this (by simp)
      | true =>
        obtain ⟨r, hr, hir, hrj, hinv⟩ := ih i ((i + j) / 2) hh1 (by omega) (by omega)
        refine ⟨r, ?_, hir, by omega, ?_⟩
        · simp [sort.Search.loop, hlt, hfh, hg, Result.bind_ok, hr]
        · intro hmono hlo _
          refine hinv hmono hlo ?_
          intro k hk hkn
          exact hmono ((i + j) / 2) k hk hkn hg
    · have hji : i = j := by omega
      exact ⟨i, by simp [sort.Search.loop, hlt], le_refl i, hij, fun _ hlo hhi => ⟨hlo, by
        intro k hk hkn; exact hhi k (by omega) hkn⟩⟩

/-- For any sequence, sorted or not, `search` returns an index, and the index is in
range unless the sequence is empty (then it is `0`). -/
theorem HashRing.search_total (hr : HashRing) (hash : Nat) :
    ∃ idx, hr.search hash = .ok idx ∧ (hr.sortedHashes ≠ [] → idx < hr.sortedHashes.length) ∧
      (hr.sortedHashes = [] → idx = 0) := by
  obtain ⟨r, hr1, _, hrn, _⟩ := sort.Search.loop_spec
    (fun i => (index hr.sortedHashes i).bind fun x => .ok (decide (x ≥ hash)))
    (fun i => decide (hr.sortedHashes.getD i 0 ≥ hash)) hr.sortedHashes.length
    (fun k hk => by simp [index_of_lt _ _ hk, Result.bind_ok])
    hr.sortedHashes.length 0 hr.sortedHashes.length (Nat.zero_le _) (le_refl _) (by omega)
  by_cases hlt : r < hr.sortedHashes.length
  · refine ⟨r, ?_, fun _ => hlt, fun h => ?_⟩
    · simp [HashRing.search, sort.Search, hr1, Result.bind_ok, hlt]
    · simp [h] at hlt
  · refine ⟨0, ?_, fun h => ?_, fun _ => rfl⟩
    · simp [HashRing.search, sort.Search, hr1, Result.bind_ok, hlt]
    · exact List.length_pos.mpr h

/-- On an ascending sequence `search` is the lower bound with wraparound. -/
theorem HashRing.search_sorted (hr : HashRing) (hash : Nat)
    (hs : hr.sortedHashes.Sorted (fun a b => a ≤ b)) :
    ∃ idx, hr.search hash = .ok idx ∧
      ((∃ k, k < hr.sortedHashes.length ∧ hash ≤ hr.sortedHashes.getD k 0) →
        idx < hr.sortedHashes.length ∧ hash ≤ hr.sortedHashes.getD idx 0 ∧
          ∀ k, k < idx → hr.sortedHashes.getD k 0 < hash) ∧
      ((∀ k, k < hr.sortedHashes.length → hr.sortedHashes.getD k 0 < hash) → idx = 0) := by
  obtain ⟨r, hr1, _, hrn, hinv⟩ := sort.Search.loop_spec
    (fun i => (index hr.sortedHashes i).bind fun x => .ok (decide (x ≥ hash)))
    (fun i => decide (hr.sortedHashes.getD i 0 ≥ hash)) hr.sortedHashes.length
    (fun k hk => by simp [index_of_lt _ _ hk, Result.bind_ok])
    hr.sortedHashes.length 0 hr.sortedHashes.length (Nat.zero_le _) (le_refl _) (by omega)
  have hmono : ∀ a b, a ≤ b → b < hr.sortedHashes.length →
      decide (hr.sortedHashes.getD a 0 ≥ hash) = true →
      decide (hr.sortedHashes.getD b 0 ≥ hash) = true := by
    intro a b hab hb ha
    simp only [decide_eq_true_eq] at ha ⊢
    have hle : hr.sortedHashes.getD a 0 ≤ hr.sortedHashes.getD b 0 := by
      rcases Nat.eq_or_lt_of_le hab with h | h
      · subst h; exact le_refl _
      · have := List.pairwise_iff_getElem.mp hs a b (by omega) hb h
        simpa [List.getD_eq_getElem?_getD, List.getElem?_eq_getElem, hb,
          (show a < hr.sortedHashes.length by omega)] using this
    omega
  obtain ⟨hlo, hhi⟩ := hinv hmono (by intro k hk; omega) (by intro k hk hkn; omega)
  by_cases hlt : r < hr.sortedHashes.length
  · refine ⟨r, ?_, fun _ => ⟨hlt, ?_, ?_⟩, fun hall => ?_⟩
    · simp [HashRing.search, sort.Search, hr1, Result.bind_ok, hlt]
    · simpa only [decide_eq_true_eq, ge_iff_le] using hhi r (le_refl r) hlt
    · intro k hk
      simpa only [decide_eq_false_iff_not, ge_iff_le, not_le] using hlo k hk
    · by_contra hne
      have h1 := hall r hlt
      have h2 := hhi r (le_refl r) hlt
      simp only [decide_eq_true_eq, ge_iff_le] at h2
      omega
  · refine ⟨0, ?_, fun ⟨k, hk, hkh⟩ => ?_, fun _ => rfl⟩
    · simp [HashRing.search, sort.Search, hr1, Result.bind_ok, hlt]
    · have := hlo k (by omega)
      simp only [decide_eq_false_iff_not, ge_iff_le, not_le] at this
      omega

/-! ## Ownership on the circle -/

theorem IsOwner.unique {l : List Nat} {h p p' : Nat} (hp : IsOwner l h p)
    (hp' : IsOwner l h p') : p = p' := by
  obtain ⟨hm, h1⟩ := hp
  obtain ⟨hm', h2⟩ := hp'
  rcases h1 with ⟨a, b⟩ | ⟨a, b⟩ <;> rcases h2 with ⟨a', b'⟩ | ⟨a', b'⟩
  · exact le_antisymm (b p' hm' a') (b' p hm a)
  · have := a' p hm; omega
  · have := a p' hm'; omega
  · exact le_antisymm (b p' hm') (b' p hm)

theorem IsOwner.of_subset {l l' : List Nat} {h p : Nat} (hp : IsOwner l h p)
    (hsub : ∀ q, q ∈ l' → q ∈ l) (hm : p ∈ l') : IsOwner l' h p := by
  obtain ⟨_, h1⟩ := hp
  refine ⟨hm, ?_⟩
  rcases h1 with ⟨a, b⟩ | ⟨a, b⟩
  · exact Or.inl ⟨a, fun q hq hq' => b q (hsub q hq) hq'⟩
  · exact Or.inr ⟨fun q hq => a q (hsub q hq), fun q hq => b q (hsub q hq)⟩

theorem sorted_getD_le {l : List Nat} (hs : l.Sorted (fun a b => a ≤ b)) {a b : Nat}
    (hab : a ≤ b) (hb : b < l.length) : l.getD a 0 ≤ l.getD b 0 := by
  rcases Nat.eq_or_lt_of_le hab with h | h
  · subst h; exact le_refl _
  · have := List.pairwise_iff_getElem.mp hs a b (by omega) hb h
    simpa [List.getD_eq_getElem?_getD, List.getElem?_eq_getElem, hb,
      (show a < l.length by omega)] using this

theorem getD_mem {l : List Nat} {k : Nat} (hk : k < l.length) : l.getD k 0 ∈ l := by
  rw [List.getD_eq_getElem _ _ hk]
  exact List.getElem_mem hk

theorem exists_getD_of_mem {l : List Nat} {q : Nat} (hq : q ∈ l) :
    ∃ k, k < l.length ∧ l.getD k 0 = q := by
  obtain ⟨k, hk, rfl⟩ := List.mem_iff_getElem.mp hq
  exact ⟨k, hk, List.getD_eq_getElem _ _ hk⟩

/-- On a ring whose sequence is non-empty and ascending, `GetNode` returns the node the
table binds to the owner position of the key's hash. -/
theorem HashRing.GetNode_sorted (hr : HashRing) (key : String)
    (hne : hr.sortedHashes ≠ []) (hs : hr.sortedHashes.Sorted (fun a b => a ≤ b)) :
    ∃ p, IsOwner hr.sortedHashes (hashKey key) p ∧ hr.GetNode key = .ok (hr.nodeAt p) ∧
      ((∀ q ∈ hr.sortedHashes, q < hashKey key) → hr.sortedHashes[0]? = some p) := by
  have hlen : 0 < hr.sortedHashes.length := List.length_pos.mpr hne
  obtain ⟨idx, hidx, hsome, hnone⟩ := hr.search_sorted (hashKey key) hs
  by_cases hex : ∃ k, k < hr.sortedHashes.length ∧ hashKey key ≤ hr.sortedHashes.getD k 0
  · obtain ⟨hlt, hge, hbelow⟩ := hsome hex
    refine ⟨hr.sortedHashes.getD idx 0, ⟨getD_mem hlt, Or.inl ⟨hge, ?_⟩⟩, ?_, ?_⟩
    · intro q hq hhq
      obtain ⟨k, hk, rfl⟩ := exists_getD_of_mem hq
      have hik : idx ≤ k := by
        by_contra hcon
        have := hbelow k (by omega)
        omega
      exact sorted_getD_le hs hik hk
    · simp [HashRing.GetNode, Nat.ne_of_gt hlen, hidx, Result.bind_ok, index_of_lt _ _ hlt]
    · intro hall
      have := hall _ (getD_mem hlt)
      omega
  · have hall : ∀ k, k < hr.sortedHashes.length → hr.sortedHashes.getD k 0 < hashKey key := by
      intro k hk
      by_contra hcon
      exact hex ⟨k, hk, by omega⟩
    have h0 := hnone hall
    subst h0
    refine ⟨hr.sortedHashes.getD 0 0, ⟨getD_mem hlen, Or.inr ⟨?_, ?_⟩⟩, ?_, ?_⟩
    · intro q hq
      obtain ⟨k, hk, rfl⟩ := exists_getD_of_mem hq
      exact hall k hk
    · intro q hq
      obtain ⟨k, hk, rfl⟩ := exists_getD_of_mem hq
      exact sorted_getD_le hs (Nat.zero_le k) hk
    · simp [HashRing.GetNode, Nat.ne_of_gt hlen, hidx, Result.bind_ok, index_of_lt _ _ hlen]
    · intro _
      rw [List.getD_eq_getElem _ _ hlen, List.getElem?_eq_getElem hlen]

/-! ## Effect of `AddNode` and `RemoveNode` -/

theorem mem_replicaHashes {replicas : Int} {node : String} {p : Nat} :
    p ∈ replicaHashes replicas node ↔
      ∃ i, i < replicas.toNat ∧ p = HashRing.replicaHash node i := by
  simp only [replicaHashes, List.mem_map, List.mem_range]
  constructor
  · rintro ⟨i, hi, rfl⟩; exact ⟨i, hi, rfl⟩
  · rintro ⟨i, hi, rfl⟩; exact ⟨i, hi, rfl⟩

theorem sort.Slice_sorted (s : List Nat) : (sort.Slice s).Sorted (fun a b => a ≤ b) :=
  List.sorted_insertionSort _ s

theorem sort.Slice_perm (s : List Nat) : (sort.Slice s).Perm s :=
  List.perm_insertionSort _ s

theorem sort.mem_Slice {s : List Nat} {p : Nat} : p ∈ sort.Slice s ↔ p ∈ s :=
  (sort.Slice_perm s).mem_iff

theorem sort.length_Slice (s : List Nat) : (sort.Slice s).length = s.length :=
  (sort.Slice_perm s).length_eq

/-- The sorted result does not depend on the order of the input. -/
theorem sort.Slice_congr {s t : List Nat} (h : s.Perm t) : sort.Slice s = sort.Slice t :=
  List.eq_of_perm_of_sorted (((sort.Slice_perm s).trans h).trans (sort.Slice_perm t).symm)
    (sort.Slice_sorted s) (sort.Slice_sorted t)

theorem sort.Slice_of_sorted {s : List Nat} (h : s.Sorted (fun a b => a ≤ b)) :
    sort.Slice s = s :=
  List.Sorted.insertionSort_eq h

theorem HashRing.foldl_addReplica (node : String) (is : List Nat) (hr : HashRing) :
    (is.foldl (HashRing.addReplica node) hr).replicas = hr.replicas ∧
    (is.foldl (HashRing.addReplica node) hr).sortedHashes =
      hr.sortedHashes ++ is.map (HashRing.replicaHash node) ∧
    ∀ p, (is.foldl (HashRing.addReplica node) hr).nodes.lookup p =
      if p ∈ is.map (HashRing.replicaHash node) then some node else hr.nodes.lookup p := by
  induction is generalizing hr with
  | nil => simp
  | cons i is ih =>
    obtain ⟨h1, h2, h3⟩ := ih (HashRing.addReplica node hr i)
    refine ⟨by simpa [HashRing.addReplica] using h1, by simpa [HashRing.addReplica] using h2, ?_⟩
    intro p
    rw [List.foldl_cons, h3 p]
    by_cases hp : p ∈ is.map (HashRing.replicaHash node)
    · simp [hp]
    · by_cases hpi : p = HashRing.replicaHash node i
      · subst hpi
        simp [hp, HashRing.addReplica, AList.lookup_insert]
      · simp [hp, hpi, HashRing.addReplica, AList.lookup_insert_ne hpi]

theorem HashRing.AddNode_replicas (hr : HashRing) (node : String) :
    (hr.AddNode node).replicas = hr.replicas :=
  (HashRing.foldl_addReplica node _ hr).1

theorem HashRing.AddNode_sortedHashes (hr : HashRing) (node : String) :
    (hr.AddNode node).sortedHashes =
      sort.Slice (hr.sortedHashes ++ replicaHashes hr.replicas node) := by
  simp only [HashRing.AddNode, replicaHashes, (HashRing.foldl_addReplica node _ hr).2.1]

theorem HashRing.AddNode_lookup (hr : HashRing) (node : String) (p : Nat) :
    (hr.AddNode node).nodes.lookup p =
      if p ∈ replicaHashes hr.replicas node then some node else hr.nodes.lookup p :=
  (HashRing.foldl_addReplica node _ hr).2.2 p

theorem foldl_erase_lookup (ps : List Nat) (m : NodeMap) (p : Nat) :
    (ps.foldl (fun m q => m.erase q) m).lookup p =
      if p ∈ ps then none else m.lookup p := by
  induction ps generalizing m with
  | nil => simp
  | cons q ps ih =>
    rw [List.foldl_cons, ih]
    by_cases hp : p ∈ ps
    · simp [hp]
    · by_cases hpq : p = q
      · subst hpq; simp [hp, AList.lookup_erase]
      · simp [hp, hpq, AList.lookup_erase_ne hpq]

theorem HashRing.RemoveNode_replicas (hr : HashRing) (node : String) :
    (hr.RemoveNode node).replicas = hr.replicas := rfl

theorem HashRing.RemoveNode_lookup (hr : HashRing) (node : String) (p : Nat) :
    (hr.RemoveNode node).nodes.lookup p =
      if p ∈ replicaHashes hr.replicas node then none else hr.nodes.lookup p := by
  have := foldl_erase_lookup (replicaHashes hr.replicas node) hr.nodes p
  simpa [HashRing.RemoveNode, replicaHashes, List.foldl_map] using this

theorem HashRing.RemoveNode_sortedHashes (hr : HashRing) (node : String) :
    (hr.RemoveNode node).sortedHashes = sort.Slice (hr.RemoveNode node).nodes.keys := rfl

theorem NodeMap.mem_keys_iff {m : NodeMap} {p : Nat} :
    p ∈ m.keys ↔ ∃ n, m.lookup p = some n := by
  rw [← AList.mem_keys, ← AList.lookup_isSome, Option.isSome_iff_exists]

theorem HashRing.mem_keys_RemoveNode (hr : HashRing) (node : String) (p : Nat) :
    p ∈ (hr.RemoveNode node).nodes.keys ↔
      p ∈ hr.nodes.keys ∧ p ∉ replicaHashes hr.replicas node := by
  rw [NodeMap.mem_keys_iff, NodeMap.mem_keys_iff]
  simp only [HashRing.RemoveNode_lookup]
  by_cases hp : p ∈ replicaHashes hr.replicas node <;> simp [hp]

theorem HashRing.mem_keys_AddNode (hr : HashRing) (node : String) (p : Nat) :
    p ∈ (hr.AddNode node).nodes.keys ↔
      p ∈ hr.nodes.keys ∨ p ∈ replicaHashes hr.replicas node := by
  rw [NodeMap.mem_keys_iff, NodeMap.mem_keys_iff]
  simp only [HashRing.AddNode_lookup]
  by_cases hp : p ∈ replicaHashes hr.replicas node <;> simp [hp]

/-! ## Invariants of reachable rings -/

theorem run_nil (R : Int) : run R [] = NewHashRing R := rfl

theorem run_concat (R : Int) (ops : List Op) (op : Op) :
    run R (ops ++ [op]) = Op.apply (run R ops) op := by
  simp [run, List.foldl_append]

theorem present_concat_add (ops : List Op) (m n : String) :
    present (ops ++ [Op.add m]) n = if m = n then true else present ops n := by
  simp [present, List.foldl_append]

theorem present_concat_remove (ops : List Op) (m n : String) :
    present (ops ++ [Op.remove m]) n = if m = n then false else present ops n := by
  simp [present, List.foldl_append]

theorem RingInv.new (R : Int) : RingInv R [] (NewHashRing R) where
  replicas := rfl
  sorted := by simp [NewHashRing]
  keys := by intro p; simp [NewHashRing]
  bound := by intro p m h; simp [NewHashRing] at h

theorem RingInv.add {R : Int} {ops : List Op} {hr : HashRing} (h : RingInv R ops hr) (n : String) :
    RingInv R (ops ++ [Op.add n]) (hr.AddNode n) where
  replicas := by rw [HashRing.AddNode_replicas, h.replicas]
  sorted := by rw [HashRing.AddNode_sortedHashes]; exact sort.Slice_sorted _
  keys := by
    intro p
    rw [HashRing.AddNode_sortedHashes, sort.mem_Slice, List.mem_append,
      HashRing.mem_keys_AddNode, h.keys p]
  bound := by
    intro p m hm
    rw [HashRing.AddNode_lookup, h.replicas] at hm
    rw [present_concat_add]
    by_cases hp : p ∈ replicaHashes R n
    · rw [if_pos hp] at hm
      cases hm
      exact ⟨hp, by simp⟩
    · rw [if_neg hp] at hm
      obtain ⟨h1, h2⟩ := h.bound p m hm
      exact ⟨h1, by simp [h2]⟩

theorem RingInv.remove {R : Int} {ops : List Op} {hr : HashRing} (h : RingInv R ops hr)
    (n : String) : RingInv R (ops ++ [Op.remove n]) (hr.RemoveNode n) where
  replicas := by rw [HashRing.RemoveNode_replicas, h.replicas]
  sorted := by rw [HashRing.RemoveNode_sortedHashes]; exact sort.Slice_sorted _
  keys := by
    intro p
    rw [HashRing.RemoveNode_sortedHashes, sort.mem_Slice]
  bound := by
    intro p m hm
    rw [HashRing.RemoveNode_lookup, h.replicas] at hm
    rw [present_concat_remove]
    by_cases hp : p ∈ replicaHashes R n
    · rw [if_pos hp] at hm
      cases hm
    · rw [if_neg hp] at hm
      obtain ⟨h1, h2⟩ := h.bound p m hm
      refine ⟨h1, ?_⟩
      have hne : n ≠ m := by
        rintro rfl
        exact hp h1
      simp [hne, h2]

/-- Every ring reached from `NewHashRing(R)` satisfies the invariants. -/
theorem run_inv (R : Int) (ops : List Op) : RingInv R ops (run R ops) := by
  induction ops using List.reverseRecOn with
  | nil => exact RingInv.new R
  | append_singleton ops op ih =>
    rw [run_concat]
    cases op with
    | add n => exact ih.add n
    | remove n => exact ih.remove n

/-- In a ring satisfying the invariants, a lookup returns `""` on an empty sequence
and otherwise the node bound to the owner position, which is a key of the table. -/
theorem RingInv.GetNode {R : Int} {ops : List Op} {hr : HashRing} (h : RingInv R ops hr)
    (key : String) :
    (hr.sortedHashes = [] ∧ hr.GetNode key = .ok "") ∨
    ∃ p m, IsOwner hr.sortedHashes (hashKey key) p ∧ hr.nodes.lookup p = some m ∧
      hr.GetNode key = .ok m := by
  by_cases hne : hr.sortedHashes = []
  · exact Or.inl ⟨hne, by simp [HashRing.GetNode, hne]⟩
  · obtain ⟨p, hp, hg, _⟩ := hr.GetNode_sorted key hne h.sorted
    obtain ⟨m, hm⟩ := NodeMap.mem_keys_iff.mp ((h.keys p).mp hp.1)
    exact Or.inr ⟨p, m, hp, hm, by rw [hg]; simp [HashRing.nodeAt, hm]⟩

/-! ## The claims -/

/-- C1: on a ring whose position sequence is non-empty and ascending, `GetNode(k)`
returns the node the table binds to the least position `≥ hashKey(k)` when there is
such a position, and otherwise (every position is below the hash) the node bound to
the position at index 0, which is the smallest position. -/
theorem C1_GetNode_successor_with_wraparound (hr : HashRing) (key : String)
    (hne : hr.sortedHashes ≠ []) (hs : hr.sortedHashes.Sorted (fun a b => a ≤ b)) :
    (∀ p, p ∈ hr.sortedHashes → hashKey key ≤ p →
        (∀ q ∈ hr.sortedHashes, hashKey key ≤ q → p ≤ q) →
        hr.GetNode key = .ok (hr.nodeAt p)) ∧
    ((∀ q ∈ hr.sortedHashes, q < hashKey key) →
        ∃ p0, hr.sortedHashes[0]? = some p0 ∧ (∀ q ∈ hr.sortedHashes, p0 ≤ q) ∧
          hr.GetNode key = .ok (hr.nodeAt p0)) := by
  obtain ⟨p, hp, hg, h0⟩ := hr.GetNode_sorted key hne hs
  constructor
  · intro p' hm hge hleast
    have : IsOwner hr.sortedHashes (hashKey key) p' := ⟨hm, Or.inl ⟨hge, hleast⟩⟩
    rw [this.unique hp]
    exact hg
  · intro hall
    refine ⟨p, h0 hall, ?_, hg⟩
    rcases hp.2 with ⟨hge, _⟩ | ⟨_, hmin⟩
    · have := hall p hp.1
      omega
    · exact hmin

/-- C1, the example of the specification: positions `[10, 50, 90]` bound to `A, B, C`;
the key `"dodcjtp"` hashes to `95` and resolves to `A`. -/
theorem C1_witness :
    ringABC.sortedHashes ≠ [] ∧ ringABC.sortedHashes.Sorted (fun a b => a ≤ b) ∧
      hashKey "dodcjtp" = 95 ∧ ringABC.GetNode "dodcjtp" = .ok "A" := by
  refine ⟨by decide, by decide, by decide, ?_⟩
  obtain ⟨p0, h0, _, hg⟩ :=
    (C1_GetNode_successor_with_wraparound ringABC "dodcjtp" (by decide) (by decide)).2
      (by decide)
  have hp0 : p0 = 10 := by
    have h10 : ringABC.sortedHashes[0]? = some 10 := rfl
    rw [h10] at h0
    exact (Option.some.inj h0).symm
  rw [hg, hp0]
  rfl

/-- C2, as stated, fails: with one replica per node, `"node-uejgtcuo"` and
`"node-iiwucoup"` share their position; `"newkey"` resolves to `"node-iiwucoup"`, and
after `RemoveNode("node-uejgtcuo")`, which deletes the shared position, to `"node2"`. -/
theorem C2_counterexample :
    (run 1 collidingOps).GetNode "newkey" = .ok "node-iiwucoup" ∧
      "node-iiwucoup" ≠ "node-uejgtcuo" ∧
      ((run 1 collidingOps).RemoveNode "node-uejgtcuo").GetNode "newkey" = .ok "node2" := by
  decide

theorem index_eq_ok {s : List Nat} {i p : Nat} (h : index s i = .ok p) :
    i < s.length ∧ s.getD i 0 = p := by
  by_cases hi : i < s.length
  · rw [index_of_lt s i hi] at h
    injection h with h
    exact ⟨hi, h⟩
  · rw [index_of_ge s i (by omega)] at h
    cases h

/-- On an ascending sequence the position that `GetNode` reads, `sortedHashes[idx]`
with `idx` the result of `search`, is the owner position of the hash. -/
theorem HashRing.search_isOwner (hr : HashRing) (h : Nat) {idx p : Nat}
    (hs : hr.sortedHashes.Sorted (fun a b => a ≤ b))
    (hsearch : hr.search h = .ok idx) (hidx : index hr.sortedHashes idx = .ok p) :
    IsOwner hr.sortedHashes h p := by
  obtain ⟨hlt, rfl⟩ := index_eq_ok hidx
  obtain ⟨idx1, hidx1, hsome, hnone⟩ := hr.search_sorted h hs
  rw [hsearch] at hidx1
  injection hidx1 with hidx1
  subst hidx1
  by_cases hex : ∃ k, k < hr.sortedHashes.length ∧ h ≤ hr.sortedHashes.getD k 0
  · obtain ⟨_, hge, hbelow⟩ := hsome hex
    refine ⟨getD_mem hlt, Or.inl ⟨hge, ?_⟩⟩
    intro q hq hhq
    obtain ⟨k, hk, rfl⟩ := exists_getD_of_mem hq
    have hik : idx ≤ k := by
      by_contra hcon
      have := hbelow k (by omega)
      omega
    exact sorted_getD_le hs hik hk
  · have hall : ∀ k, k < hr.sortedHashes.length → hr.sortedHashes.getD k 0 < h := by
      intro k hk
      by_contra hcon
      exact hex ⟨k, hk, by omega⟩
    have h0 := hnone hall
    subst h0
    refine ⟨getD_mem hlt, Or.inr ⟨?_, ?_⟩⟩
    · intro q hq
      obtain ⟨k, hk, rfl⟩ := exists_getD_of_mem hq
      exact hall k hk
    · intro q hq
      obtain ⟨k, hk, rfl⟩ := exists_getD_of_mem hq
      exact sorted_getD_le hs (Nat.zero_le k) hk

/-- The lookup in terms of the position it reads. -/
theorem HashRing.GetNode_of_search (hr : HashRing) (key : String) {idx p : Nat}
    (hsearch : hr.search (hashKey key) = .ok idx)
    (hidx : index hr.sortedHashes idx = .ok p) : hr.GetNode key = .ok (hr.nodeAt p) := by
  have hlen : hr.sortedHashes.length ≠ 0 := by
    have := (index_eq_ok hidx).1
    omega
  simp [HashRing.GetNode, hlen, hsearch, Result.bind_ok, hidx]

/-- C2 (amended): in a ring reached from `NewHashRing(R)`, if `GetNode(k)` returned `m`
before `RemoveNode(n)` and the position it read, `sortedHashes[search(hashKey(k))]`,
is not one of the replica positions of `n`, then `GetNode(k)` returns `m` after the
removal.  The position read is always a replica position of `m`, so for `m` other
than `n` the condition fails only when a position of `n` coincides with that position
of `m`. -/
theorem C2_removal_keeps_other_owners (R : Int) (ops : List Op) (n m key : String)
    (hbefore : (run R ops).GetNode key = .ok m) :
    ((∀ idx p, (run R ops).search (hashKey key) = .ok idx →
        index (run R ops).sortedHashes idx = .ok p → p ∉ replicaHashes R n) →
      ((run R ops).RemoveNode n).GetNode key = .ok m) ∧
    (∀ idx p, (run R ops).search (hashKey key) = .ok idx →
      index (run R ops).sortedHashes idx = .ok p → p ∈ replicaHashes R m) := by
  have inv := run_inv R ops
  have inv1 := inv.remove n
  have hsub : ∀ q, q ∈ ((run R ops).RemoveNode n).sortedHashes →
      q ∈ (run R ops).sortedHashes := by
    intro q hq
    rw [inv1.keys, HashRing.mem_keys_RemoveNode] at hq
    exact (inv.keys q).mpr hq.1
  constructor
  · intro hpos
    rcases inv.GetNode key with ⟨hemp, hg⟩ | ⟨p, m1, hown, hlook, hg⟩
    · rw [hg] at hbefore
      rcases inv1.GetNode key with ⟨_, hg1⟩ | ⟨p1, _, hown1, _, _⟩
      · rw [hg1]; exact hbefore
      · have := hsub p1 hown1.1
        rw [hemp] at this
        cases this
    · rw [hg] at hbefore
      injection hbefore with hmm
      subst hmm
      have hp : p ∉ replicaHashes R n := by
        obtain ⟨idx, hidx, hlt, _⟩ := (run R ops).search_total (hashKey key)
        have hne : (run R ops).sortedHashes ≠ [] := List.ne_nil_of_mem hown.1
        have hix := index_of_lt _ _ (hlt hne)
        have hq := (run R ops).search_isOwner (hashKey key) inv.sorted hidx hix
        rw [← hq.unique hown]
        exact hpos idx _ hidx hix
      have hlook1 : ((run R ops).RemoveNode n).nodes.lookup p = some m1 := by
        rw [HashRing.RemoveNode_lookup, inv.replicas, if_neg hp, hlook]
      have hmem1 : p ∈ ((run R ops).RemoveNode n).sortedHashes :=
        (inv1.keys p).mpr (NodeMap.mem_keys_iff.mpr ⟨m1, hlook1⟩)
      rcases inv1.GetNode key with ⟨hemp1, _⟩ | ⟨p1, m2, hown1, hlook2, hg1⟩
      · rw [hemp1] at hmem1
        cases hmem1
      · have hpp : p1 = p := hown1.unique (hown.of_subset hsub hmem1)
        subst hpp
        rw [hlook1] at hlook2
        rw [hg1, ← Option.some.inj hlook2]
  · intro idx p hsearch hidx
    have hg := (run R ops).GetNode_of_search key hsearch hidx
    rw [hg] at hbefore
    injection hbefore with hnode
    have hmem : p ∈ (run R ops).sortedHashes := by
      obtain ⟨hlt, rfl⟩ := index_eq_ok hidx
      exact getD_mem hlt
    obtain ⟨m1, hm1⟩ := NodeMap.mem_keys_iff.mp ((inv.keys p).mp hmem)
    have : m1 = m := by
      rw [← hnode]
      simp [HashRing.nodeAt, hm1]
    subst this
    exact (inv.bound p m1 hm1).1

/-- C2 (amended), on the ring of the counterexample: `"k53"` is read at the position of
`"node2"`, which is not the position of `"node-uejgtcuo"`, and resolves to `"node2"`
before and after `RemoveNode("node-uejgtcuo")`. -/
theorem C2_witness :
    (run 1 collidingOps).GetNode "k53" = .ok "node2" ∧
    (run 1 collidingOps).search (hashKey "k53") = .ok 2 ∧
    index (run 1 collidingOps).sortedHashes 2 = .ok 2846827095 ∧
    2846827095 ∉ replicaHashes 1 "node-uejgtcuo" ∧
    ((run 1 collidingOps).RemoveNode "node-uejgtcuo").GetNode "k53" = .ok "node2" := by
  have hsearch : (run 1 collidingOps).search (hashKey "k53") = .ok 2 := by decide
  have hidx : index (run 1 collidingOps).sortedHashes 2 = .ok 2846827095 := by decide
  have hnot : 2846827095 ∉ replicaHashes 1 "node-uejgtcuo" := by decide
  refine ⟨by decide, hsearch, hidx, hnot, ?_⟩
  refine (C2_removal_keeps_other_owners 1 collidingOps "node-uejgtcuo" "node2" "k53"
    (by decide)).1 ?_
  intro idx p h1 h2
  rw [hsearch] at h1
  injection h1 with h1
  subst h1
  rw [hidx] at h2
  injection h2 with h2
  subst h2
  exact hnot

/-- C3, as stated, fails in two ways.  A node may be named `""`: after `AddNode("")`
on a ring of one replica the lookup returns `""`.  And a present node may have lost
its position: `"node-iiwucoup"` is added after `"node-uejgtcuo"` on the same position,
`RemoveNode("node-uejgtcuo")` deletes that position, and the lookup returns `""`
although `"node-iiwucoup"` is present and `""` is not. -/
theorem C3_counterexample :
    ((1 : Int) ≥ 1 ∧ present [Op.add ""] "" = true ∧
      (run 1 [Op.add ""]).GetNode "newkey" = .ok "") ∧
    (present [Op.add "node-uejgtcuo", Op.add "node-iiwucoup", Op.remove "node-uejgtcuo"]
        "node-iiwucoup" = true ∧
      present [Op.add "node-uejgtcuo", Op.add "node-iiwucoup", Op.remove "node-uejgtcuo"]
        "" = false ∧
      (run 1 [Op.add "node-uejgtcuo", Op.add "node-iiwucoup",
        Op.remove "node-uejgtcuo"]).GetNode "newkey" = .ok "") := by
  decide

/-- C3 (amended): in a ring reached from `NewHashRing(R)` whose position sequence is
non-empty, `GetNode(k)` returns the identifier of a currently present node; the result
is not `""` unless `""` itself is a present node. -/
theorem C3_GetNode_returns_present_node (R : Int) (ops : List Op) (key : String)
    (hne : (run R ops).sortedHashes ≠ []) :
    ∃ m, (run R ops).GetNode key = .ok m ∧ present ops m = true ∧
      (present ops "" = false → m ≠ "") := by
  have inv := run_inv R ops
  rcases inv.GetNode key with ⟨hemp, _⟩ | ⟨p, m, _, hlook, hg⟩
  · exact absurd hemp hne
  · have hpres := (inv.bound p m hlook).2
    refine ⟨m, hg, hpres, ?_⟩
    intro hno hm
    rw [hm, hno] at hpres
    cases hpres

/-- C3 (amended), on the scenario of `main`: `"newkey"` resolves to the present node
`"node3"`. -/
theorem C3_witness :
    (run 8 mainOps).sortedHashes ≠ [] ∧
      ∃ m, (run 8 mainOps).GetNode "newkey" = .ok m ∧ present mainOps m = true ∧
        (present mainOps "" = false → m ≠ "") :=
  ⟨by decide, C3_GetNode_returns_present_node 8 mainOps "newkey" (by decide)⟩

/-- C4: in a ring reached from `NewHashRing(R)`, immediately after `RemoveNode(n)` with
`n` non-empty, `GetNode(k)` returns a value different from `n`, and no table entry is
bound to `n`. -/
theorem C4_removed_node_never_returned (R : Int) (ops : List Op) (n key : String)
    (hn : n ≠ "") :
    (∃ m, ((run R ops).RemoveNode n).GetNode key = .ok m ∧ m ≠ n) ∧
      ∀ p, ((run R ops).RemoveNode n).nodes.lookup p ≠ some n := by
  have inv := run_inv R ops
  have inv' := inv.remove n
  have hnot : ∀ p, ((run R ops).RemoveNode n).nodes.lookup p ≠ some n := by
    intro p hp
    rw [HashRing.RemoveNode_lookup, inv.replicas] at hp
    by_cases hmem : p ∈ replicaHashes R n
    · rw [if_pos hmem] at hp; cases hp
    · rw [if_neg hmem] at hp
      exact hmem (inv.bound p n hp).1
  refine ⟨?_, hnot⟩
  rcases inv'.GetNode key with ⟨_, hg⟩ | ⟨p, m, _, hlook, hg⟩
  · exact ⟨"", hg, fun h => hn h.symm⟩
  · refine ⟨m, hg, ?_⟩
    rintro rfl
    exact hnot p hlook

/-- C4, on the scenario of `main`: replicas `8`, `node1`, `node2`, `node3` added,
`node2` removed; none of the five lookups returns `node2`. -/
theorem C4_witness :
    "node2" ≠ "" ∧ ∀ key ∈ mainKeys,
      ∃ m, ((run 8 mainOps).RemoveNode "node2").GetNode key = .ok m ∧ m ≠ "node2" :=
  ⟨by decide, fun key _ =>
    (C4_removed_node_never_returned 8 mainOps "node2" key (by decide)).1⟩

/-- C5: on a ring whose position sequence is empty, `GetNode(k)` returns `""`; any
element access on that sequence would have panicked, so none is made.  The ring
returned by `NewHashRing(R)` is such a ring for every `R`. -/
theorem C5_empty_ring_returns_sentinel (hr : HashRing) (key : String)
    (hemp : hr.sortedHashes = []) :
    hr.GetNode key = .ok "" ∧
      (∀ i, index hr.sortedHashes i = .fault .indexOutOfRange) ∧
      ∀ R : Int, (NewHashRing R).sortedHashes = [] ∧ (NewHashRing R).GetNode key = .ok "" := by
  refine ⟨by simp [HashRing.GetNode, hemp], ?_, fun R => ⟨rfl, rfl⟩⟩
  intro i
  exact index_of_ge _ _ (by simp [hemp])

/-- C5, on a ring whose table still has an entry but whose sequence is empty. -/
theorem C5_witness :
    ({ ringABC with sortedHashes := [] } : HashRing).sortedHashes = [] ∧
      ({ ringABC with sortedHashes := [] } : HashRing).GetNode "newkey" = .ok "" :=
  ⟨rfl, (C5_empty_ring_returns_sentinel { ringABC with sortedHashes := [] } "newkey" rfl).1⟩

/-- C6: in every ring reached from `NewHashRing(R)` by `AddNode` and `RemoveNode`
calls, a position occurs in `sortedHashes` exactly when it is a key of `nodes`. -/
theorem C6_sequence_matches_table_keys (R : Int) (ops : List Op) (p : Nat) :
    p ∈ (run R ops).sortedHashes ↔ p ∈ (run R ops).nodes.keys :=
  (run_inv R ops).keys p

/-- C7: in every ring reached from `NewHashRing(R)` by `AddNode` and `RemoveNode`
calls, `sortedHashes` is in ascending (non-decreasing) order. -/
theorem C7_sequence_sorted (R : Int) (ops : List Op) :
    (run R ops).sortedHashes.Sorted (fun a b => a ≤ b) :=
  (run_inv R ops).sorted

theorem length_replicaHashes (R : Int) (n : String) :
    (replicaHashes R n).length = R.toNat := by
  simp [replicaHashes]

theorem nodup_replicaHashes {R : Int} {n : String}
    (hdist : ∀ i, i < R.toNat → ∀ j, j < R.toNat →
      HashRing.replicaHash n i = HashRing.replicaHash n j → i = j) :
    (replicaHashes R n).Nodup := by
  unfold replicaHashes
  refine List.Nodup.map_on ?_ (List.nodup_range _)
  intro i hi j hj h
  exact hdist i (List.mem_range.mp hi) j (List.mem_range.mp hj) h

/-- C8: for a ring with `replicas = R ≥ 0` in any state, after `AddNode(n)` the
sequence is exactly `R` entries longer, and each position `hashKey(n ++ decimal(i))`,
`0 ≤ i < R`, occurs in the sequence and is bound to `n`.  When these `R` positions are
pairwise distinct and none was a key of the table, the table has exactly `R` more keys,
the positions of the table and of the sequence are the old ones together with these,
and every other binding is unchanged. -/
theorem C8_AddNode_replica_count (hr : HashRing) (n : String) (hR : 0 ≤ hr.replicas) :
    ((hr.AddNode n).sortedHashes.length : Int) = hr.sortedHashes.length + hr.replicas ∧
    (∀ i : Nat, (i : Int) < hr.replicas →
      HashRing.replicaHash n i ∈ (hr.AddNode n).sortedHashes ∧
        (hr.AddNode n).nodes.lookup (HashRing.replicaHash n i) = some n) ∧
    ((∀ i, i < hr.replicas.toNat → ∀ j, j < hr.replicas.toNat →
        HashRing.replicaHash n i = HashRing.replicaHash n j → i = j) →
      (∀ i, i < hr.replicas.toNat → HashRing.replicaHash n i ∉ hr.nodes.keys) →
      ((hr.AddNode n).nodes.keys.length : Int) = hr.nodes.keys.length + hr.replicas ∧
      (∀ p, p ∈ (hr.AddNode n).nodes.keys ↔
        p ∈ hr.nodes.keys ∨ ∃ i, i < hr.replicas.toNat ∧ p = HashRing.replicaHash n i) ∧
      (∀ p, p ∈ (hr.AddNode n).sortedHashes ↔
        p ∈ hr.sortedHashes ∨ ∃ i, i < hr.replicas.toNat ∧ p = HashRing.replicaHash n i) ∧
      ∀ p, (∀ i, i < hr.replicas.toNat → p ≠ HashRing.replicaHash n i) →
        (hr.AddNode n).nodes.lookup p = hr.nodes.lookup p) := by
  have hcast : ((hr.replicas.toNat : Nat) : Int) = hr.replicas := Int.toNat_of_nonneg hR
  refine ⟨?_, ?_, ?_⟩
  · rw [HashRing.AddNode_sortedHashes, sort.length_Slice, List.length_append,
      length_replicaHashes]
    omega
  · intro i hi
    have hmem : HashRing.replicaHash n i ∈ replicaHashes hr.replicas n :=
      mem_replicaHashes.mpr ⟨i, by omega, rfl⟩
    constructor
    · rw [HashRing.AddNode_sortedHashes, sort.mem_Slice]
      exact List.mem_append_right _ hmem
    · rw [HashRing.AddNode_lookup, if_pos hmem]
  · intro hdist hfresh
    have hkeys : ∀ p, p ∈ (hr.AddNode n).nodes.keys ↔
        p ∈ hr.nodes.keys ∨ ∃ i, i < hr.replicas.toNat ∧ p = HashRing.replicaHash n i := by
      intro p
      rw [HashRing.mem_keys_AddNode, mem_replicaHashes]
    refine ⟨?_, hkeys, ?_, ?_⟩
    · have hnd : (hr.nodes.keys ++ replicaHashes hr.replicas n).Nodup := by
        refine List.Nodup.append hr.nodes.keys_nodup (nodup_replicaHashes hdist) ?_
        intro p hp hp'
        obtain ⟨i, hi, rfl⟩ := mem_replicaHashes.mp hp'
        exact hfresh i hi hp
      have hperm : (hr.AddNode n).nodes.keys.Perm
          (hr.nodes.keys ++ replicaHashes hr.replicas n) := by
        refine (List.perm_ext_iff_of_nodup (hr.AddNode n).nodes.keys_nodup hnd).mpr ?_
        intro p
        rw [HashRing.mem_keys_AddNode, List.mem_append]
      rw [hperm.length_eq, List.length_append, length_replicaHashes]
      omega
    · intro p
      rw [HashRing.AddNode_sortedHashes, sort.mem_Slice, List.mem_append, mem_replicaHashes]
    · intro p hp
      rw [HashRing.AddNode_lookup, if_neg]
      intro hmem
      obtain ⟨i, hi, rfl⟩ := mem_replicaHashes.mp hmem
      exact hp i hi rfl

/-- C8, on the first call of `main`: `AddNode("node1")` on the new ring of 8 replicas
gives a sequence of 8 positions and a table of 8 keys. -/
theorem C8_witness :
    (0 : Int) ≤ (NewHashRing 8).replicas ∧
      (((NewHashRing 8).AddNode "node1").sortedHashes.length : Int) =
        (NewHashRing 8).sortedHashes.length + (NewHashRing 8).replicas ∧
      (((NewHashRing 8).AddNode "node1").nodes.keys.length : Int) =
        (NewHashRing 8).nodes.keys.length + (NewHashRing 8).replicas :=
  ⟨by decide, (C8_AddNode_replica_count (NewHashRing 8) "node1" (by decide)).1,
    ((C8_AddNode_replica_count (NewHashRing 8) "node1" (by decide)).2.2
      (by decide) (by decide)).1⟩

theorem foldl_erase_of_not_mem (ps : List Nat) (m : NodeMap)
    (h : ∀ q ∈ ps, q ∉ m.keys) : ps.foldl (fun m q => m.erase q) m = m := by
  induction ps with
  | nil => rfl
  | cons q ps ih =>
    have hq : m.erase q = m :=
      AList.ext (List.kerase_of_not_mem_keys (h q (List.mem_cons_self q ps)))
    rw [List.foldl_cons, hq]
    exact ih (fun q' hq' => h q' (List.mem_cons_of_mem q hq'))

theorem sort.Slice_keys_strict (m : NodeMap) :
    (sort.Slice m.keys).Sorted (fun a b => a < b) :=
  (sort.Slice_sorted m.keys).lt_of_le ((sort.Slice_perm m.keys).nodup_iff.mpr m.keys_nodup)

/-- C9: for every ring state and node `n`, after `RemoveNode(n)` the keys
`hashKey(n ++ decimal(i))`, `0 ≤ i < replicas`, are absent from the table and every
other key keeps its binding; `sortedHashes` is strictly ascending (ascending and
duplicate-free) and a rearrangement of the keys left in the table; and it is the same
whatever the sequence held before. -/
theorem C9_RemoveNode_effect (hr : HashRing) (n : String) :
    (∀ i, i < hr.replicas.toNat →
      (hr.RemoveNode n).nodes.lookup (HashRing.replicaHash n i) = none) ∧
    (∀ p, (∀ i, i < hr.replicas.toNat → p ≠ HashRing.replicaHash n i) →
      (hr.RemoveNode n).nodes.lookup p = hr.nodes.lookup p) ∧
    (hr.RemoveNode n).sortedHashes.Sorted (fun a b => a < b) ∧
    (hr.RemoveNode n).sortedHashes.Perm (hr.RemoveNode n).nodes.keys ∧
    ∀ s : List Nat, (HashRing.RemoveNode { hr with sortedHashes := s } n).sortedHashes =
      (hr.RemoveNode n).sortedHashes := by
  refine ⟨?_, ?_, ?_, ?_, fun s => rfl⟩
  · intro i hi
    rw [HashRing.RemoveNode_lookup, if_pos (mem_replicaHashes.mpr ⟨i, hi, rfl⟩)]
  · intro p hp
    rw [HashRing.RemoveNode_lookup, if_neg]
    intro hmem
    obtain ⟨i, hi, rfl⟩ := mem_replicaHashes.mp hmem
    exact hp i hi rfl
  · rw [HashRing.RemoveNode_sortedHashes]
    exact sort.Slice_keys_strict _
  · rw [HashRing.RemoveNode_sortedHashes]
    exact sort.Slice_perm _

/-- C10, as stated, fails in two ways.  After `AddNode("node1")` twice the sequence
holds a position twice, and removing the absent `"node2"` rebuilds it without the
duplicate.  And removing the absent `"node-iiwucoup"` deletes the position it shares
with the present `"node-uejgtcuo"`, which empties the table. -/
theorem C10_counterexample :
    (present [Op.add "node1", Op.add "node1"] "node2" = false ∧
      (run 1 [Op.add "node1", Op.add "node1"]).sortedHashes = [2189586836, 2189586836] ∧
      ((run 1 [Op.add "node1", Op.add "node1"]).RemoveNode "node2").sortedHashes =
        [2189586836]) ∧
    (present [Op.add "node-uejgtcuo"] "node-iiwucoup" = false ∧
      (run 1 [Op.add "node-uejgtcuo"]).nodes.lookup 2756034297 = some "node-uejgtcuo" ∧
      ((run 1 [Op.add "node-uejgtcuo"]).RemoveNode "node-iiwucoup").nodes.lookup 2756034297 =
        none) := by
  decide

/-- C10 (amended): in a ring reached from `NewHashRing(R)`, for a node `n` that is not
currently present and whose replica positions are not bound to any other node,
`RemoveNode(n)` leaves the table unchanged and replaces the sequence by its
duplicate-free version; the sequence is unchanged when it held no duplicates. -/
theorem C10_remove_absent_node (R : Int) (ops : List Op) (n : String)
    (habs : present ops n = false)
    (hcol : ∀ p ∈ replicaHashes R n,
      (run R ops).nodes.lookup p = none ∨ (run R ops).nodes.lookup p = some n) :
    ((run R ops).RemoveNode n).nodes = (run R ops).nodes ∧
    ((run R ops).RemoveNode n).sortedHashes = (run R ops).sortedHashes.dedup ∧
    ((run R ops).sortedHashes.Nodup →
      ((run R ops).RemoveNode n).sortedHashes = (run R ops).sortedHashes) := by
  have inv := run_inv R ops
  have hfree : ∀ p ∈ replicaHashes R n, p ∉ (run R ops).nodes.keys := by
    intro p hp hk
    rcases hcol p hp with h | h
    · obtain ⟨m, hm⟩ := NodeMap.mem_keys_iff.mp hk
      rw [h] at hm
      cases hm
    · have := (inv.bound p n h).2
      rw [habs] at this
      cases this
  have hnodes : ((run R ops).RemoveNode n).nodes = (run R ops).nodes := by
    have := foldl_erase_of_not_mem (replicaHashes R n) (run R ops).nodes hfree
    simpa [HashRing.RemoveNode, replicaHashes, List.foldl_map, inv.replicas] using this
  have hdedup : ((run R ops).RemoveNode n).sortedHashes = (run R ops).sortedHashes.dedup := by
    rw [HashRing.RemoveNode_sortedHashes, hnodes]
    refine List.eq_of_perm_of_sorted ?_ (sort.Slice_sorted _)
      (inv.sorted.sublist (List.dedup_sublist _))
    refine (List.perm_ext_iff_of_nodup ?_ (List.nodup_dedup _)).mpr ?_
    · exact (sort.Slice_perm _).nodup_iff.mpr (run R ops).nodes.keys_nodup
    · intro p
      rw [sort.mem_Slice, List.mem_dedup, inv.keys]
  refine ⟨hnodes, hdedup, fun hnd => ?_⟩
  rw [hdedup, List.Nodup.dedup hnd]

/-- C10 (amended), on the scenario of `main`: removing the absent `"node4"` changes
neither the table nor the sequence. -/
theorem C10_witness :
    present mainOps "node4" = false ∧
    (∀ p ∈ replicaHashes 8 "node4",
      (run 8 mainOps).nodes.lookup p = none ∨ (run 8 mainOps).nodes.lookup p = some "node4") ∧
    (run 8 mainOps).sortedHashes.Nodup ∧
    ((run 8 mainOps).RemoveNode "node4").nodes = (run 8 mainOps).nodes ∧
    ((run 8 mainOps).RemoveNode "node4").sortedHashes = (run 8 mainOps).sortedHashes :=
  ⟨by decide, by decide, by decide,
    (C10_remove_absent_node 8 mainOps "node4" (by decide) (by decide)).1,
    (C10_remove_absent_node 8 mainOps "node4" (by decide) (by decide)).2.2 (by decide)⟩

/-- C11, as stated, fails: `NewHashRing` has no failure path.  For the counts `0` and
`-1` it returns a ring with an empty table and an empty sequence, and the calls that
follow return normally. -/
theorem C11_counterexample :
    (NewHashRing 0).replicas = 0 ∧ (NewHashRing 0).sortedHashes = [] ∧
      (NewHashRing 0).nodes.keys = [] ∧
      ((NewHashRing 0).AddNode "node1").GetNode "newkey" = .ok "" ∧
      (NewHashRing (-1)).replicas = -1 ∧
      ((NewHashRing (-1)).AddNode "node1").GetNode "newkey" = .ok "" := by
  decide

/-- C11 (amended): for every replica count, also zero and negative ones,
`NewHashRing(replicas)` returns a ring with an empty table, an empty sequence and that
count, and every lookup on a ring reached from it returns a value. -/
theorem C11_NewHashRing_accepts_every_count (R : Int) :
    (NewHashRing R).nodes = ∅ ∧ (NewHashRing R).sortedHashes = [] ∧
      (NewHashRing R).replicas = R ∧
      ∀ (ops : List Op) (key : String), ∃ m, (run R ops).GetNode key = .ok m := by
  refine ⟨rfl, rfl, rfl, fun ops key => ?_⟩
  rcases (run_inv R ops).GetNode key with ⟨_, hg⟩ | ⟨_, m, _, _, hg⟩
  · exact ⟨"", hg⟩
  · exact ⟨m, hg⟩

/-- C13: on an ascending sequence (duplicates allowed) `search(h)` returns the least
index whose position is `≥ h`, so the first of a run of equal positions, and returns
`0` when no position is `≥ h`, the empty sequence included. -/
theorem C13_search_lower_bound_with_wraparound (hr : HashRing) (h : Nat)
    (hs : hr.sortedHashes.Sorted (fun a b => a ≤ b)) :
    ∃ idx, hr.search h = .ok idx ∧
      ((∃ x ∈ hr.sortedHashes, h ≤ x) →
        (∃ x, hr.sortedHashes[idx]? = some x ∧ h ≤ x) ∧
          ∀ k y, k < idx → hr.sortedHashes[k]? = some y → y < h) ∧
      ((∀ x ∈ hr.sortedHashes, x < h) → idx = 0) := by
  obtain ⟨idx, hidx, hsome, hnone⟩ := hr.search_sorted h hs
  refine ⟨idx, hidx, ?_, ?_⟩
  · rintro ⟨x, hx, hhx⟩
    obtain ⟨k, hk, rfl⟩ := exists_getD_of_mem hx
    obtain ⟨hlt, hge, hbelow⟩ := hsome ⟨k, hk, hhx⟩
    refine ⟨⟨hr.sortedHashes.getD idx 0, ?_, hge⟩, ?_⟩
    · rw [List.getD_eq_getElem _ _ hlt, List.getElem?_eq_getElem hlt]
    · intro j y hj hy
      have hjl : j < hr.sortedHashes.length := by omega
      have := hbelow j hj
      rw [List.getD_eq_getElem _ _ hjl] at this
      rw [List.getElem?_eq_getElem hjl] at hy
      cases hy
      exact this
  · intro hall
    exact hnone (fun k hk => hall _ (getD_mem hk))

/-- C13, on a sequence with a run of equal positions: the hash `50` is sent to index
`1`, the first `50`. -/
theorem C13_witness :
    ringTies.sortedHashes.Sorted (fun a b => a ≤ b) ∧ ringTies.search 50 = .ok 1 := by
  refine ⟨by decide, ?_⟩
  obtain ⟨idx, hidx, hsome, _⟩ :=
    C13_search_lower_bound_with_wraparound ringTies 50 (by decide)
  obtain ⟨⟨x, hx, hge⟩, hbelow⟩ := hsome ⟨50, by decide, by decide⟩
  have hidx1 : idx = 1 := by
    have h2 : idx < 2 := by
      by_contra hcon
      have := hbelow 1 50 (by omega) rfl
      omega
    have h0 : idx ≠ 0 := by
      rintro rfl
      have h10 : ringTies.sortedHashes[0]? = some 10 := rfl
      rw [h10] at hx
      cases hx
      omega
    omega
  rw [hidx, hidx1]

/-! ## Repeated additions, empty rings, round trips -/

theorem NodeMap.perm_of_lookup_eq {m m' : NodeMap} (h : ∀ p, m.lookup p = m'.lookup p) :
    m.entries.Perm m'.entries := by
  refine List.lookup_ext m.nodupKeys m'.nodupKeys ?_
  intro p v
  have := h p
  simp only [AList.lookup] at this
  rw [this]

theorem count_AddNode_sortedHashes (hr : HashRing) (n : String) (p : Nat) :
    (hr.AddNode n).sortedHashes.count p =
      hr.sortedHashes.count p + (replicaHashes hr.replicas n).count p := by
  rw [HashRing.AddNode_sortedHashes, (sort.Slice_perm _).count_eq, List.count_append]

/-- With a replica count `≤ 0` no call changes the ring. -/
theorem run_of_nonpos (R : Int) (hR : R ≤ 0) (ops : List Op) : run R ops = NewHashRing R := by
  have h0 : R.toNat = 0 := Int.toNat_eq_zero.mpr hR
  induction ops using List.reverseRecOn with
  | nil => rfl
  | append_singleton ops op ih =>
    rw [run_concat, ih]
    cases op with
    | add n => simp [Op.apply, HashRing.AddNode, NewHashRing, h0, sort.Slice]
    | remove n => simp [Op.apply, HashRing.RemoveNode, NewHashRing, h0, sort.Slice]

/-- C14: in a ring state in which all `R` replica positions of `n` are bound to `n`, a
further `AddNode(n)` leaves the table unchanged and makes `sortedHashes` `R` entries
longer; each position of `n` occurs once more than before, hence at least twice when
the sequence already held it, and so whenever the state is the result of
`AddNode(n)`. -/
theorem C14_duplicate_AddNode (hr : HashRing) (n : String)
    (hbound : ∀ i, i < hr.replicas.toNat →
      hr.nodes.lookup (HashRing.replicaHash n i) = some n) :
    (∀ p, (hr.AddNode n).nodes.lookup p = hr.nodes.lookup p) ∧
    (hr.AddNode n).nodes.entries.Perm hr.nodes.entries ∧
    (hr.AddNode n).sortedHashes.length = hr.sortedHashes.length + hr.replicas.toNat ∧
    (∀ i, i < hr.replicas.toNat →
      hr.sortedHashes.count (HashRing.replicaHash n i) + 1 ≤
        (hr.AddNode n).sortedHashes.count (HashRing.replicaHash n i)) ∧
    (∀ i, i < hr.replicas.toNat → HashRing.replicaHash n i ∈ hr.sortedHashes →
      2 ≤ (hr.AddNode n).sortedHashes.count (HashRing.replicaHash n i)) ∧
    (∀ hr0 : HashRing, hr = hr0.AddNode n → ∀ i, i < hr.replicas.toNat →
      2 ≤ (hr.AddNode n).sortedHashes.count (HashRing.replicaHash n i)) := by
  have hlook : ∀ p, (hr.AddNode n).nodes.lookup p = hr.nodes.lookup p := by
    intro p
    rw [HashRing.AddNode_lookup]
    by_cases hp : p ∈ replicaHashes hr.replicas n
    · obtain ⟨i, hi, rfl⟩ := mem_replicaHashes.mp hp
      rw [if_pos hp, hbound i hi]
    · rw [if_neg hp]
  have hcount : ∀ i, i < hr.replicas.toNat →
      hr.sortedHashes.count (HashRing.replicaHash n i) + 1 ≤
        (hr.AddNode n).sortedHashes.count (HashRing.replicaHash n i) := by
    intro i hi
    rw [count_AddNode_sortedHashes]
    have : 0 < (replicaHashes hr.replicas n).count (HashRing.replicaHash n i) :=
      List.count_pos_iff.mpr (mem_replicaHashes.mpr ⟨i, hi, rfl⟩)
    omega
  have htwice : ∀ i, i < hr.replicas.toNat → HashRing.replicaHash n i ∈ hr.sortedHashes →
      2 ≤ (hr.AddNode n).sortedHashes.count (HashRing.replicaHash n i) := by
    intro i hi hmem
    have h1 := hcount i hi
    have h2 : 0 < hr.sortedHashes.count (HashRing.replicaHash n i) :=
      List.count_pos_iff.mpr hmem
    omega
  refine ⟨hlook, NodeMap.perm_of_lookup_eq hlook, ?_, hcount, htwice, ?_⟩
  · rw [HashRing.AddNode_sortedHashes, sort.length_Slice, List.length_append,
      length_replicaHashes]
  · intro hr0 h0 i hi
    refine htwice i hi ?_
    rw [h0, HashRing.AddNode_replicas] at hi
    rw [h0, HashRing.AddNode_sortedHashes, sort.mem_Slice]
    exact List.mem_append_right _ (mem_replicaHashes.mpr ⟨i, hi, rfl⟩)

/-- C14, on the first node of `main` added twice: after the first `AddNode("node1")`
the 8 positions are bound to `node1` and in the sequence; after the second the
sequence has 16 entries and holds each position twice. -/
theorem C14_witness :
    (∀ i, i < ((NewHashRing 8).AddNode "node1").replicas.toNat →
      ((NewHashRing 8).AddNode "node1").nodes.lookup (HashRing.replicaHash "node1" i) =
        some "node1") ∧
    (((NewHashRing 8).AddNode "node1").AddNode "node1").sortedHashes.length = 8 + 8 ∧
    ∀ i, i < 8 →
      2 ≤ (((NewHashRing 8).AddNode "node1").AddNode "node1").sortedHashes.count
        (HashRing.replicaHash "node1" i) := by
  have h := C14_duplicate_AddNode ((NewHashRing 8).AddNode "node1") "node1" (by decide)
  exact ⟨by decide, h.2.2.1, fun i hi => h.2.2.2.2.2 (NewHashRing 8) rfl i hi⟩

/-- C15: a ring built with a replica count `R ≤ 0` stays empty: every ring reached
from `NewHashRing(R)` by `AddNode` and `RemoveNode` calls has an empty table and an
empty sequence, and `GetNode` returns `""` for every key. -/
theorem C15_nonpositive_replicas_permanently_empty (R : Int) (hR : R ≤ 0) (ops : List Op) :
    (run R ops).nodes = ∅ ∧ (run R ops).nodes.keys = [] ∧ (run R ops).sortedHashes = [] ∧
      ∀ key, (run R ops).GetNode key = .ok "" := by
  rw [run_of_nonpos R hR ops]
  exact ⟨rfl, rfl, rfl, fun _ => rfl⟩

/-- C15, on the calls of `main` followed by a removal, with the counts `0` and `-3`. -/
theorem C15_witness :
    ((0 : Int) ≤ 0 ∧ (run 0 (mainOps ++ [Op.remove "node2"])).sortedHashes = [] ∧
      (run 0 (mainOps ++ [Op.remove "node2"])).GetNode "newkey" = .ok "") ∧
    ((-3 : Int) ≤ 0 ∧ (run (-3) mainOps).nodes.keys = [] ∧
      (run (-3) mainOps).GetNode "newkey" = .ok "") :=
  ⟨⟨by decide,
    (C15_nonpositive_replicas_permanently_empty 0 (by decide)
      (mainOps ++ [Op.remove "node2"])).2.2.1,
    (C15_nonpositive_replicas_permanently_empty 0 (by decide)
      (mainOps ++ [Op.remove "node2"])).2.2.2 "newkey"⟩,
   ⟨by decide, (C15_nonpositive_replicas_permanently_empty (-3) (by decide) mainOps).2.1,
    (C15_nonpositive_replicas_permanently_empty (-3) (by decide) mainOps).2.2.2 "newkey"⟩⟩

theorem HashRing.GetNode_of_nil (hr : HashRing) (key : String) (h : hr.sortedHashes = []) :
    hr.GetNode key = .ok "" := by
  simp [HashRing.GetNode, h]

theorem HashRing.nodeAt_AddNode_of_mem (hr : HashRing) (n : String) {p : Nat}
    (hp : p ∈ replicaHashes hr.replicas n) : (hr.AddNode n).nodeAt p = n := by
  simp [HashRing.nodeAt, HashRing.AddNode_lookup, hp]

theorem HashRing.nodeAt_AddNode_of_not_mem (hr : HashRing) (n : String) {p : Nat}
    (hp : p ∉ replicaHashes hr.replicas n) : (hr.AddNode n).nodeAt p = hr.nodeAt p := by
  simp [HashRing.nodeAt, HashRing.AddNode_lookup, hp]

theorem HashRing.mem_AddNode_sortedHashes (hr : HashRing) (n : String) (p : Nat) :
    p ∈ (hr.AddNode n).sortedHashes ↔
      p ∈ hr.sortedHashes ∨ p ∈ replicaHashes hr.replicas n := by
  rw [HashRing.AddNode_sortedHashes, sort.mem_Slice, List.mem_append]

theorem HashRing.AddNode_sorted (hr : HashRing) (n : String) :
    (hr.AddNode n).sortedHashes.Sorted (fun a b => a ≤ b) := by
  rw [HashRing.AddNode_sortedHashes]
  exact sort.Slice_sorted _

/-- C16: for a ring state whose sequence is ascending (in particular one satisfying
the key-set and sortedness invariants), every node `n` and every key `k`, `GetNode(k)`
after `AddNode(n)` is `n` or the value `GetNode(k)` had before, which is `""` on a
previously empty ring; collisions of `n` with existing positions make no difference. -/
theorem C16_addition_moves_keys_only_to_new_node (hr : HashRing) (n key : String)
    (hs : hr.sortedHashes.Sorted (fun a b => a ≤ b)) :
    ∃ before after, hr.GetNode key = .ok before ∧ (hr.AddNode n).GetNode key = .ok after ∧
      (after = n ∨ after = before) ∧ (hr.sortedHashes = [] → before = "") := by
  by_cases hnew : (hr.AddNode n).sortedHashes = []
  · have hold : hr.sortedHashes = [] := by
      apply List.eq_nil_iff_forall_not_mem.mpr
      intro p hp
      have := (hr.mem_AddNode_sortedHashes n p).mpr (Or.inl hp)
      rw [hnew] at this
      cases this
    exact ⟨"", "", hr.GetNode_of_nil key hold, (hr.AddNode n).GetNode_of_nil key hnew,
      Or.inr rfl, fun _ => rfl⟩
  · obtain ⟨q, hq, hgq, _⟩ := (hr.AddNode n).GetNode_sorted key hnew (hr.AddNode_sorted n)
    by_cases hold : hr.sortedHashes = []
    · have hqmem : q ∈ replicaHashes hr.replicas n := by
        rcases (hr.mem_AddNode_sortedHashes n q).mp hq.1 with h | h
        · rw [hold] at h; cases h
        · exact h
      refine ⟨"", n, hr.GetNode_of_nil key hold, ?_, Or.inl rfl, fun _ => rfl⟩
      rw [hgq, hr.nodeAt_AddNode_of_mem n hqmem]
    · obtain ⟨p, hp, hgp, _⟩ := hr.GetNode_sorted key hold hs
      refine ⟨hr.nodeAt p, (hr.AddNode n).nodeAt q, hgp, hgq, ?_, fun h => absurd h hold⟩
      by_cases hqmem : q ∈ replicaHashes hr.replicas n
      · exact Or.inl (hr.nodeAt_AddNode_of_mem n hqmem)
      · right
        have hqold : q ∈ hr.sortedHashes := by
          rcases (hr.mem_AddNode_sortedHashes n q).mp hq.1 with h | h
          · exact h
          · exact absurd h hqmem
        have hown : IsOwner hr.sortedHashes (hashKey key) q :=
          hq.of_subset (fun x hx => (hr.mem_AddNode_sortedHashes n x).mpr (Or.inl hx)) hqold
        rw [hr.nodeAt_AddNode_of_not_mem n hqmem, hown.unique hp]

/-- C16, on the scenario of `main`: adding `"node4"` moves `"newkey5"` from `"node1"`
to `"node4"` and leaves `"newkey"` on `"node3"`. -/
theorem C16_witness :
    (run 8 mainOps).sortedHashes.Sorted (fun a b => a ≤ b) ∧
    (∃ before after, (run 8 mainOps).GetNode "newkey5" = .ok before ∧
      ((run 8 mainOps).AddNode "node4").GetNode "newkey5" = .ok after ∧
      (after = "node4" ∨ after = before) ∧ ((run 8 mainOps).sortedHashes = [] → before = "")) ∧
    (run 8 mainOps).GetNode "newkey5" = .ok "node1" ∧
    ((run 8 mainOps).AddNode "node4").GetNode "newkey5" = .ok "node4" ∧
    (run 8 mainOps).GetNode "newkey" = .ok "node3" ∧
    ((run 8 mainOps).AddNode "node4").GetNode "newkey" = .ok "node3" :=
  ⟨by decide,
    C16_addition_moves_keys_only_to_new_node (run 8 mainOps) "node4" "newkey5" (by decide),
    by decide, by decide, by decide, by decide⟩

/-- C17: for a ring state satisfying the key-set and sortedness invariants in which all
`R` replica positions of `n` are bound to `n`, a further `AddNode(n)` changes the
result of `GetNode(k)` for no key `k`, although for `R ≥ 1` the sequence then holds
duplicate positions. -/
theorem C17_readding_keeps_ownership (hr : HashRing) (n key : String)
    (hs : hr.sortedHashes.Sorted (fun a b => a ≤ b))
    (hk : ∀ p, p ∈ hr.sortedHashes ↔ p ∈ hr.nodes.keys)
    (hbound : ∀ i, i < hr.replicas.toNat →
      hr.nodes.lookup (HashRing.replicaHash n i) = some n) :
    (∃ m, hr.GetNode key = .ok m ∧ (hr.AddNode n).GetNode key = .ok m) ∧
      (0 < hr.replicas → ¬ (hr.AddNode n).sortedHashes.Nodup) := by
  have hsub : ∀ p, p ∈ replicaHashes hr.replicas n → p ∈ hr.sortedHashes := by
    intro p hp
    obtain ⟨i, hi, rfl⟩ := mem_replicaHashes.mp hp
    exact (hk _).mpr (NodeMap.mem_keys_iff.mpr ⟨n, hbound i hi⟩)
  have hmem : ∀ p, p ∈ (hr.AddNode n).sortedHashes ↔ p ∈ hr.sortedHashes := by
    intro p
    rw [hr.mem_AddNode_sortedHashes n p]
    exact ⟨fun h => h.elim id (hsub p), Or.inl⟩
  have hnode : ∀ p, (hr.AddNode n).nodeAt p = hr.nodeAt p := by
    intro p
    by_cases hp : p ∈ replicaHashes hr.replicas n
    · obtain ⟨i, hi, rfl⟩ := mem_replicaHashes.mp hp
      rw [hr.nodeAt_AddNode_of_mem n hp]
      simp [HashRing.nodeAt, hbound i hi]
    · exact hr.nodeAt_AddNode_of_not_mem n hp
  constructor
  · by_cases hold : hr.sortedHashes = []
    · have hnew : (hr.AddNode n).sortedHashes = [] := by
        apply List.eq_nil_iff_forall_not_mem.mpr
        intro p hp
        have := (hmem p).mp hp
        rw [hold] at this
        cases this
      exact ⟨"", hr.GetNode_of_nil key hold, (hr.AddNode n).GetNode_of_nil key hnew⟩
    · have hnew : (hr.AddNode n).sortedHashes ≠ [] := by
        intro h
        obtain ⟨p, hp⟩ := List.exists_mem_of_ne_nil _ hold
        have := (hmem p).mpr hp
        rw [h] at this
        cases this
      obtain ⟨p, hp, hgp, _⟩ := hr.GetNode_sorted key hold hs
      obtain ⟨q, hq, hgq, _⟩ := (hr.AddNode n).GetNode_sorted key hnew (hr.AddNode_sorted n)
      have hown : IsOwner hr.sortedHashes (hashKey key) q :=
        hq.of_subset (fun x hx => (hmem x).mpr hx) ((hmem q).mp hq.1)
      refine ⟨hr.nodeAt p, hgp, ?_⟩
      rw [hgq, hnode q, hown.unique hp]
  · intro hpos hnd
    have h0 : 0 < hr.replicas.toNat := by omega
    have hin : HashRing.replicaHash n 0 ∈ replicaHashes hr.replicas n :=
      mem_replicaHashes.mpr ⟨0, h0, rfl⟩
    have hle := List.nodup_iff_count_le_one.mp hnd (HashRing.replicaHash n 0)
    rw [count_AddNode_sortedHashes] at hle
    have h1 : 0 < hr.sortedHashes.count (HashRing.replicaHash n 0) :=
      List.count_pos_iff.mpr (hsub _ hin)
    have h2 : 0 < (replicaHashes hr.replicas n).count (HashRing.replicaHash n 0) :=
      List.count_pos_iff.mpr hin
    omega

/-- C17, on the scenario of `main`: adding `"node2"` again leaves `"newkey"` on
`"node3"`, and the sequence then has duplicates. -/
theorem C17_witness :
    (run 8 mainOps).sortedHashes.Sorted (fun a b => a ≤ b) ∧
    (∀ i, i < (run 8 mainOps).replicas.toNat →
      (run 8 mainOps).nodes.lookup (HashRing.replicaHash "node2" i) = some "node2") ∧
    (∃ m, (run 8 mainOps).GetNode "newkey" = .ok m ∧
      ((run 8 mainOps).AddNode "node2").GetNode "newkey" = .ok m) ∧
    ¬ ((run 8 mainOps).AddNode "node2").sortedHashes.Nodup :=
  ⟨by decide, by decide,
    (C17_readding_keeps_ownership (run 8 mainOps) "node2" "newkey" (by decide)
      (run_inv 8 mainOps).keys (by decide)).1,
    (C17_readding_keeps_ownership (run 8 mainOps) "node2" "newkey" (by decide)
      (run_inv 8 mainOps).keys (by decide)).2 (by decide)⟩

theorem kerase_append_of_not_mem {X E : List (Sigma fun _ : Nat => String)} {p : Nat}
    (hp : p ∉ E.keys) : ∃ Y, List.kerase p (X ++ E) = Y ++ E := by
  by_cases hX : p ∈ X.keys
  · exact ⟨List.kerase p X, List.kerase_append_left hX⟩
  · exact ⟨X, by rw [List.kerase_append_right hX, List.kerase_of_not_mem_keys hp]⟩

theorem foldl_insert_entries (n : String) (ps : List Nat) (E : List (Sigma fun _ : Nat => String))
    (hps : ∀ q ∈ ps, q ∉ E.keys) (m : NodeMap) (hm : ∃ X, m.entries = X ++ E) :
    ∃ X, (ps.foldl (fun m q => m.insert q n) m).entries = X ++ E := by
  induction ps generalizing m with
  | nil => exact hm
  | cons q ps ih =>
    obtain ⟨X, hX⟩ := hm
    obtain ⟨Y, hY⟩ := kerase_append_of_not_mem (X := X) (hps q (List.mem_cons_self q ps))
    refine ih (fun q' hq' => hps q' (List.mem_cons_of_mem q hq')) (m.insert q n) ?_
    exact ⟨⟨q, n⟩ :: Y, by rw [AList.insert_entries, hX, hY, List.cons_append]⟩

theorem foldl_erase_entries (ps : List Nat) (E : List (Sigma fun _ : Nat => String))
    (hps : ∀ q ∈ ps, q ∉ E.keys) (m : NodeMap) (hm : ∃ X, m.entries = X ++ E) :
    ∃ X, (ps.foldl (fun m q => m.erase q) m).entries = X ++ E := by
  induction ps generalizing m with
  | nil => exact hm
  | cons q ps ih =>
    obtain ⟨X, hX⟩ := hm
    obtain ⟨Y, hY⟩ := kerase_append_of_not_mem (X := X) (hps q (List.mem_cons_self q ps))
    refine ih (fun q' hq' => hps q' (List.mem_cons_of_mem q hq')) (m.erase q) ?_
    exact ⟨Y, by
      show List.kerase q m.entries = Y ++ E
      rw [hX, hY]⟩

theorem HashRing.foldl_addReplica_nodes (node : String) (is : List Nat) (hr : HashRing) :
    (is.foldl (HashRing.addReplica node) hr).nodes =
      (is.map (HashRing.replicaHash node)).foldl (fun m q => m.insert q node) hr.nodes := by
  induction is generalizing hr with
  | nil => rfl
  | cons i is ih =>
    rw [List.foldl_cons, ih]
    rfl

theorem HashRing.AddNode_nodes (hr : HashRing) (node : String) :
    (hr.AddNode node).nodes =
      (replicaHashes hr.replicas node).foldl (fun m q => m.insert q node) hr.nodes :=
  HashRing.foldl_addReplica_nodes node _ hr

theorem HashRing.RemoveNode_nodes (hr : HashRing) (node : String) :
    (hr.RemoveNode node).nodes =
      (replicaHashes hr.replicas node).foldl (fun m q => m.erase q) hr.nodes := by
  simp [HashRing.RemoveNode, replicaHashes, List.foldl_map]

/-- A sequence that is strictly ascending and holds exactly the keys of the table is
the sorted key list. -/
theorem sort.Slice_keys_eq {m : NodeMap} {s : List Nat}
    (hs : s.Sorted (fun a b => a < b)) (hk : ∀ p, p ∈ s ↔ p ∈ m.keys) :
    sort.Slice m.keys = s := by
  refine List.eq_of_perm_of_sorted ?_ (sort.Slice_sorted _) hs.le_of_lt
  refine (List.perm_ext_iff_of_nodup ?_ hs.nodup).mpr ?_
  · exact (sort.Slice_perm _).nodup_iff.mpr m.keys_nodup
  · intro p
    rw [sort.mem_Slice, hk]

/-- C18: for a ring state whose sequence is the ascending duplicate-free list of the
keys of the table, and a node `n` none of whose replica positions is a key of the
table, `AddNode(n)` followed by `RemoveNode(n)` gives back the original table and the
original sequence. -/
theorem C18_add_then_remove_round_trip (hr : HashRing) (n : String)
    (hs : hr.sortedHashes.Sorted (fun a b => a < b))
    (hk : ∀ p, p ∈ hr.sortedHashes ↔ p ∈ hr.nodes.keys)
    (hfresh : ∀ i, i < hr.replicas.toNat → HashRing.replicaHash n i ∉ hr.nodes.keys) :
    ((hr.AddNode n).RemoveNode n).nodes = hr.nodes ∧
      (∀ p, ((hr.AddNode n).RemoveNode n).nodes.lookup p = hr.nodes.lookup p) ∧
      ((hr.AddNode n).RemoveNode n).sortedHashes = hr.sortedHashes ∧
      ((hr.AddNode n).RemoveNode n).replicas = hr.replicas := by
  have hfree : ∀ q ∈ replicaHashes hr.replicas n, q ∉ hr.nodes.entries.keys := by
    intro q hq
    obtain ⟨i, hi, rfl⟩ := mem_replicaHashes.mp hq
    exact hfresh i hi
  have hlook : ∀ p, ((hr.AddNode n).RemoveNode n).nodes.lookup p = hr.nodes.lookup p := by
    intro p
    rw [HashRing.RemoveNode_lookup, HashRing.AddNode_replicas]
    by_cases hp : p ∈ replicaHashes hr.replicas n
    · rw [if_pos hp]
      exact (AList.lookup_eq_none.mpr (hfree p hp)).symm
    · rw [if_neg hp, HashRing.AddNode_lookup, if_neg hp]
  have hnodes : ((hr.AddNode n).RemoveNode n).nodes = hr.nodes := by
    obtain ⟨X, hX⟩ := foldl_insert_entries n (replicaHashes hr.replicas n) hr.nodes.entries
      hfree hr.nodes ⟨[], rfl⟩
    rw [← HashRing.AddNode_nodes] at hX
    obtain ⟨Y, hY⟩ := foldl_erase_entries (replicaHashes hr.replicas n) hr.nodes.entries
      hfree (hr.AddNode n).nodes ⟨X, hX⟩
    rw [← HashRing.AddNode_replicas hr n, ← HashRing.RemoveNode_nodes] at hY
    have hlen := (NodeMap.perm_of_lookup_eq hlook).length_eq
    rw [hY, List.length_append] at hlen
    have hnil : Y = [] := List.length_eq_zero.mp (by omega)
    apply AList.ext
    rw [hY, hnil, List.nil_append]
  refine ⟨hnodes, hlook, ?_, by rw [HashRing.RemoveNode_replicas, HashRing.AddNode_replicas]⟩
  rw [HashRing.RemoveNode_sortedHashes, hnodes]
  exact sort.Slice_keys_eq hs hk

/-- C18, on the scenario of `main` after `RemoveNode("node2")`: adding and removing
`"node4"` gives back the table and the sequence. -/
theorem C18_witness :
    (run 8 (mainOps ++ [Op.remove "node2"])).sortedHashes.Sorted (fun a b => a < b) ∧
    (∀ i, i < (run 8 (mainOps ++ [Op.remove "node2"])).replicas.toNat →
      HashRing.replicaHash "node4" i ∉ (run 8 (mainOps ++ [Op.remove "node2"])).nodes.keys) ∧
    (((run 8 (mainOps ++ [Op.remove "node2"])).AddNode "node4").RemoveNode "node4").nodes =
      (run 8 (mainOps ++ [Op.remove "node2"])).nodes ∧
    (((run 8 (mainOps ++ [Op.remove "node2"])).AddNode "node4").RemoveNode
      "node4").sortedHashes = (run 8 (mainOps ++ [Op.remove "node2"])).sortedHashes :=
  ⟨by decide, by decide,
    (C18_add_then_remove_round_trip (run 8 (mainOps ++ [Op.remove "node2"])) "node4"
      (by decide) (run_inv 8 (mainOps ++ [Op.remove "node2"])).keys (by decide)).1,
    (C18_add_then_remove_round_trip (run 8 (mainOps ++ [Op.remove "node2"])) "node4"
      (by decide) (run_inv 8 (mainOps ++ [Op.remove "node2"])).keys (by decide)).2.2.1⟩

/-- C19: for every non-empty sequence, ascending or not, `search(h)` returns an index
below the length, so the element access in `GetNode` is defined and `GetNode` returns
a value. -/
theorem C19_search_index_in_range (hr : HashRing) (h : Nat) (key : String)
    (hne : hr.sortedHashes ≠ []) :
    (∃ idx, hr.search h = .ok idx ∧ idx < hr.sortedHashes.length ∧
      ∃ x, index hr.sortedHashes idx = .ok x) ∧
    ∃ m, hr.GetNode key = .ok m := by
  constructor
  · obtain ⟨idx, hidx, hlt, _⟩ := hr.search_total h
    exact ⟨idx, hidx, hlt hne, _, index_of_lt _ _ (hlt hne)⟩
  · obtain ⟨idx, hidx, hlt, _⟩ := hr.search_total (hashKey key)
    have hlen : hr.sortedHashes.length ≠ 0 := by
      intro h0
      exact hne (List.length_eq_zero.mp h0)
    exact ⟨hr.nodeAt (hr.sortedHashes.getD idx 0), by
      simp [HashRing.GetNode, hlen, hidx, Result.bind_ok, index_of_lt _ _ (hlt hne)]⟩

/-- C19, on a sequence that is not ascending. -/
theorem C19_witness :
    ringUnsorted.sortedHashes ≠ [] ∧
      (∃ idx, ringUnsorted.search 60 = .ok idx ∧ idx < ringUnsorted.sortedHashes.length ∧
        ∃ x, index ringUnsorted.sortedHashes idx = .ok x) ∧
      ∃ m, ringUnsorted.GetNode "newkey" = .ok m :=
  ⟨by decide, C19_search_index_in_range ringUnsorted 60 "newkey" (by decide)⟩
